import Mathlib

/-!
Verification of the conversation-history image compactor
(`fitness_manager_agent/callbacks.py`, `modify_image_data_in_history`) and of
the image-id sanitizer (`fitness_manager_agent/tools.py`, `sanitize_image_id`).

The embedding mirrors the Python source:
* `google.genai.types` parts/contents become plain structures with `Option`
  fields (a genai `Part` carries optional `text`, `inline_data`,
  `function_response` fields; a `Blob` carries optional `data` bytes).
* Python exceptions (IndexError / TypeError) are modelled by `Option`:
  a function returns `none` exactly when the Python code would raise.
* Python strings in the sanitizer are modelled as `List Char` so that
  `str.split`, `str.startswith` and `str.strip` have transparent
  definitions (`pySplit`, `List.isPrefixOf`, `pyStrip`).
-/

namespace Genai

/-- Byte payload of a genai `Blob`; `data` is optional in the API. -/
structure Blob where
  data : Option (List Nat)
deriving DecidableEq

/-- A genai `Part`: optional text, optional inline binary, optional function
response (the payload of the response is irrelevant to the compactor, only
its presence matters, so it is modelled as an opaque string). -/
structure Part where
  text : Option String := none
  inline_data : Option Blob := none
  function_response : Option String := none
deriving DecidableEq

/-- A genai `Content`: a role together with an ordered list of parts. -/
structure Content where
  role : String
  parts : List Part
deriving DecidableEq

end Genai

open Genai

/-- A pure text part, `types.Part(text=t)`. -/
def textPart (t : String) : Part := { text := some t }

/-- An inline-image part holding the given bytes. -/
def binPart (bytes : List Nat) : Part := { inline_data := some ⟨some bytes⟩ }

/-- Python `s.startswith(pre)`. -/
def pyStartsWith (pre s : String) : Bool := pre.data.isPrefixOf s.data

/-- Hex digit characters, lowercase, as produced by Python `hexdigest()`. -/
def hexChar (n : Nat) : Char :=
  if n < 10 then Char.ofNat (48 + n) else Char.ofNat (87 + n)

/-- `k` hex characters of `n`, most significant first (fixed width `k`). -/
def hexDigits : Nat → Nat → List Char
  | 0, _ => []
  | k + 1, n => hexDigits k (n / 16) ++ [hexChar (n % 16)]

/-- Modelled from the spec: the source calls `hashlib.sha256(...).hexdigest()`,
Python standard-library code that is not part of this repository.  The spec
(§4.1) requires only a deterministic digest from the image bytes to a
fixed-length lowercase hex string ("any collision-resistant 256-bit-or-larger
digest qualifies — the design does not depend on a specific algorithm's
internal structure, only on determinism").  We model it as a deterministic
256-bit accumulator rendered as the 64-character lowercase hex digest
(as its character list). -/
def sha256hex (bytes : List Nat) : List Char :=
  hexDigits 64
    ((bytes.foldl (fun acc b => (acc * 1099511628211 + b % 256 + 1) % 2 ^ 256) 5381
      * (2 ^ 208 + 2 ^ 77 + 1)) % 2 ^ 256)

/-- `hasher.hexdigest()[:12]` — the first 12 hex characters of the digest. -/
def imageHashId (bytes : List Nat) : List Char := (sha256hex bytes).take 12

/-- The placeholder text created for an image: `f"[IMAGE-ID {image_hash_id}]"`
(the braces in the Python f-string stand for interpolation of the hash id). -/
def placeholderFor (bytes : List Nat) : String :=
  "[IMAGE-ID " ++ ⟨imageHashId bytes⟩ ++ "]"

/-- Does this part look like an existing placeholder: a text part whose text
starts with the literal `"[IMAGE-ID "`? -/
def isPlaceholderText (p : Part) : Bool :=
  match p.text with
  | none => false
  | some t => pyStartsWith "[IMAGE-ID " t

/-- The `is_placeholder_missing` test of the source at a binary part, given
the (original) parts that follow it: missing when there is no next part, or
the next part's text is `None`, or it does not start with `"[IMAGE-ID "`. -/
def missingAtB : List Part → Bool
  | [] => true
  | q :: _ => !(isPlaceholderText q)

/-- The per-part loop of `modify_image_data_in_history` over one countable
user turn.  `keep` is the test `user_message_count <= 3`.  Returns `none`
when the Python code would raise a `TypeError` (`hashlib.sha256(None)`:
a binary part with no payload whose placeholder is missing). -/
def processParts (keep : Bool) : List Part → Option (List Part)
  | [] => some []
  | p :: rest =>
    match p.inline_data with
    | none => (processParts keep rest).map (fun r => p :: r)
    | some blob =>
      if missingAtB rest then
        match blob.data with
        | none => none
        | some bytes =>
          (processParts keep rest).map (fun r =>
            (if keep then [p] else []) ++ textPart (placeholderFor bytes) :: r)
      else
        (processParts keep rest).map (fun r => (if keep then [p] else []) ++ r)

/-- The countability test of the source:
`(content.role == "user") and (content.parts[0].function_response is None)`.
Returns `none` when the Python code would raise an `IndexError`
(`content.parts[0]` on an empty part list, reached because the first
conjunct already evaluated to true). -/
def countableCheck (c : Content) : Option Bool :=
  if c.role = "user" then
    match c.parts with
    | [] => none
    | p :: _ => some p.function_response.isNone
  else some false

/-- The main loop of `modify_image_data_in_history` over the reversed
contents list (most recent turn first); `n` is `user_message_count` so far. -/
def modifyRev : Nat → List Content → Option (List Content)
  | _, [] => some []
  | n, c :: older =>
    match countableCheck c with
    | none => none
    | some false => (modifyRev n older).map (fun r => c :: r)
    | some true =>
      match processParts (decide (n + 1 ≤ 3)) c.parts with
      | none => none
      | some ps => (modifyRev (n + 1) older).map (fun r => { c with parts := ps } :: r)

/-- `modify_image_data_in_history`: the contents list is chronological
(oldest first); the source iterates `reversed(llm_request.contents)` and
rewrites each countable user turn's parts in place.  `none` models a raised
Python exception. -/
def modify_image_data_in_history (contents : List Content) : Option (List Content) :=
  (modifyRev 0 contents.reverse).map List.reverse

/-- Total version of the countability test (meaningful whenever the source
does not raise): a manual user query turn. -/
def isCountableB (c : Content) : Bool :=
  c.role == "user" &&
    (match c.parts with
     | [] => false
     | p :: _ => p.function_response.isNone)

/-- The `user_message_count` value the source's reverse traversal has after
processing the turn at chronological index `i`: the number of countable user
turns at indices `≥ i`. -/
def countCountableFrom (h : List Content) (i : Nat) : Nat :=
  ((h.drop i).filter isCountableB).length

/-! ## The image-id sanitizer (`tools.py`, `sanitize_image_id`)

Python strings are modelled as `List Char`.  `str.split(sep)` with a
non-empty separator splits on every non-overlapping occurrence of `sep`,
scanning left to right; `[k]` indexing that can raise an `IndexError` is
modelled with `List.get?`. -/

/-- A Python string literal as a character list. -/
def str (s : String) : List Char := s.data

/-- Python `str.isspace` for the characters Python `strip()` removes
(ASCII whitespace; the id strings at issue are ASCII). -/
def pyIsSpace (c : Char) : Bool :=
  c.isWhitespace || c == Char.ofNat 11 || c == Char.ofNat 12

/-- Python `s.strip()`: remove leading and trailing whitespace. -/
def pyStrip (s : List Char) : List Char :=
  ((s.dropWhile pyIsSpace).reverse.dropWhile pyIsSpace).reverse

/-- Worker for Python `str.split(sep)`: scans the string left to right;
`skip` counts separator characters still to be consumed after a match
(so the recursion is structural in the scanned list). -/
def pySplitGo (sep : List Char) : List Char → Nat → List (List Char)
  | [], _ => [[]]
  | _ :: rest, skip + 1 => pySplitGo sep rest skip
  | c :: rest, 0 =>
    if sep.isPrefixOf (c :: rest) then
      [] :: pySplitGo sep rest (sep.length - 1)
    else
      match pySplitGo sep rest 0 with
      | [] => [[c]]
      | g :: gs => (c :: g) :: gs

/-- Python `s.split(sep)` for a non-empty separator (Python raises on an
empty separator; the source only splits on `"ID "` and `"]"`). -/
def pySplit (sep s : List Char) : List (List Char) :=
  if sep = [] then [s] else pySplitGo sep s 0

/-- Is `sep` a (contiguous) substring of `s`?  Mirrors the scan of
`pySplitGo`. -/
def hasOccur (sep : List Char) : List Char → Bool
  | [] => false
  | c :: rest => sep.isPrefixOf (c :: rest) || hasOccur sep rest

/-- `sanitize_image_id` from `tools.py`:

    if image_id.startswith("[IMAGE-"):
        image_id = image_id.split("ID ")[1].split("]")[0]
    return image_id.strip()

`none` models the `IndexError` of `split("ID ")[1]` when the split yields
fewer than two pieces (`split("]")[0]` can never fail: `split` always
returns at least one piece). -/
def sanitize_image_id (image_id : List Char) : Option (List Char) :=
  if (str "[IMAGE-").isPrefixOf image_id then
    match (pySplit (str "ID ") image_id).get? 1 with
    | none => none
    | some t => some (pyStrip ((pySplit (str "]") t).headD []))
  else
    some (pyStrip image_id)

/-! ## Auxiliary predicates on part lists -/

/-- Every binary part is immediately followed by a part whose text starts
with `"[IMAGE-ID "` (the shape `modify_image_data_in_history` leaves a
retained turn in). -/
def settledParts : List Part → Bool
  | [] => true
  | p :: rest =>
    (p.inline_data.isNone || !(missingAtB rest)) && settledParts rest

/-- Guard of `placeheldParts` at one part: if the part is a binary carrying
bytes, the next part is exactly the text part holding its placeholder. -/
def placeheldGuard (p : Part) (rest : List Part) : Bool :=
  match p.inline_data with
  | none => true
  | some blob =>
    match blob.data with
    | none => true
    | some bytes =>
      match rest with
      | [] => false
      | q :: _ => decide (q = textPart (placeholderFor bytes))

/-- Every binary part that carries bytes is immediately followed by exactly
the text part holding the placeholder derived from those bytes. -/
def placeheldParts : List Part → Bool
  | [] => true
  | p :: rest => placeheldGuard p rest && placeheldParts rest

/-- Processing this part list raises no Python error: every binary part
whose placeholder is missing carries a payload. -/
def partsOkB : List Part → Bool
  | [] => true
  | p :: rest =>
    (match p.inline_data with
     | none => true
     | some blob => !(missingAtB rest) || blob.data.isSome)
    && partsOkB rest

/-- Discriminated-union parts, as in the spec's data model (§3): a part is
not simultaneously an inline binary and a text. -/
def wfParts (ps : List Part) : Bool :=
  ps.all fun p => !(p.inline_data.isSome && p.text.isSome)

/-- Guard of `goodParts` at one part: an `"[IMAGE-ID "`-text immediately
following a binary part is the binary's own placeholder. -/
def goodGuard (p : Part) (rest : List Part) : Bool :=
  match p.inline_data, rest with
  | some blob, q :: _ =>
    !(isPlaceholderText q) ||
      (match blob.data with
       | none => true
       | some bytes => decide (q = textPart (placeholderFor bytes)))
  | _, _ => true

/-- Any pre-existing placeholder following a binary part is the binary's own
placeholder (true in particular for any history with no `"[IMAGE-ID "`
texts, and for any output of the compactor). -/
def goodParts : List Part → Bool
  | [] => true
  | p :: rest => goodGuard p rest && goodParts rest

/-- Number of binary parts whose placeholder is missing, i.e. of fresh
placeholders one compactor run inserts into this part list. -/
def freshPhCount : List Part → Nat
  | [] => 0
  | p :: rest =>
    (if p.inline_data.isSome && missingAtB rest then 1 else 0) + freshPhCount rest

/-- Processing this turn raises no Python error. -/
def turnOkB (c : Content) : Bool :=
  if c.role == "user" then
    match c.parts with
    | [] => false
    | p :: _ => !p.function_response.isNone || partsOkB c.parts
  else true

/-! ## Concrete histories used in scenarios and counterexamples -/

/-- Countable user turn holding exactly one image with the given byte. -/
def imgTurn (b : Nat) : Content := ⟨"user", [binPart [b]]⟩

/-- Countable user turn holding only text (a query with no image). -/
def textTurn (t : String) : Content := ⟨"user", [textPart t]⟩

/-- Tool-result turn: role `"user"` but the first part is a function
response; it carries an image in a later part. -/
def toolTurn : Content :=
  ⟨"user", [{ function_response := some "resp" }, binPart [9]]⟩

/-- Scenario A history: five countable user turns U1..U5, oldest first,
each with one distinct image. -/
def scenarioA : List Content :=
  [imgTurn 1, imgTurn 2, imgTurn 3, imgTurn 4, imgTurn 5]

/-- Scenario A after compaction: U1, U2 placeholder-only; U3..U5 keep the
image followed by its placeholder. -/
def scenarioAOut : List Content :=
  [⟨"user", [textPart (placeholderFor [1])]⟩,
   ⟨"user", [textPart (placeholderFor [2])]⟩,
   ⟨"user", [binPart [3], textPart (placeholderFor [3])]⟩,
   ⟨"user", [binPart [4], textPart (placeholderFor [4])]⟩,
   ⟨"user", [binPart [5], textPart (placeholderFor [5])]⟩]

/-- A countable turn whose binary is followed by a spurious pre-existing
`"[IMAGE-ID "` text whose id is not derived from the binary's bytes. -/
def advTurn : Content :=
  ⟨"user", [binPart [1], textPart "[IMAGE-ID ZZZZZZZZZZZZ]"]⟩

/-- Three countable image turns, oldest first. -/
def h3 : List Content := [imgTurn 1, imgTurn 2, imgTurn 3]

/-- The same three turns with a newer image-less countable turn appended. -/
def h4 : List Content := [imgTurn 1, imgTurn 2, imgTurn 3, textTurn "hi"]

/-- One image turn followed by three newer image-less countable turns. -/
def h8 : List Content := [imgTurn 7, textTurn "a", textTurn "b", textTurn "c"]

/-- `h8` after compaction: the image turn is the 4th most recent countable
turn, so its payload is dropped. -/
def h8Out : List Content :=
  [⟨"user", [textPart (placeholderFor [7])]⟩, textTurn "a", textTurn "b",
   textTurn "c"]

/-! ## Lemmas about `processParts` -/

theorem isPrefixOf_append_self (l t : List Char) : l.isPrefixOf (l ++ t) = true := by
  induction l with
  | nil => simp [List.isPrefixOf]
  | cons c cs ih => simp [List.isPrefixOf, ih]

theorem isPlaceholderText_placeholder (bytes : List Nat) :
    isPlaceholderText (textPart (placeholderFor bytes)) = true := by
  simp only [isPlaceholderText, textPart, placeholderFor, pyStartsWith,
    String.data_append, List.append_assoc]
  exact isPrefixOf_append_self _ _

theorem textPart_inline_data (t : String) : (textPart t).inline_data = none := rfl

/-! Unfolding equations for `processParts`, one per branch of the source's
per-part loop. -/

theorem processParts_cons_nonbin (k : Bool) (p : Part) (rest : List Part)
    (hp : p.inline_data = none) :
    processParts k (p :: rest) = (processParts k rest).map (fun r => p :: r) := by
  simp [processParts, hp]

theorem processParts_cons_missing (k : Bool) (p : Part) (rest : List Part)
    (blob : Blob) (bytes : List Nat) (hp : p.inline_data = some blob)
    (hm : missingAtB rest = true) (hd : blob.data = some bytes) :
    processParts k (p :: rest) = (processParts k rest).map (fun r =>
      (if k then [p] else []) ++ textPart (placeholderFor bytes) :: r) := by
  simp [processParts, hp, hm, hd]

theorem processParts_cons_missing_nodata (k : Bool) (p : Part)
    (rest : List Part) (blob : Blob) (hp : p.inline_data = some blob)
    (hm : missingAtB rest = true) (hd : blob.data = none) :
    processParts k (p :: rest) = none := by
  simp [processParts, hp, hm, hd]

theorem processParts_cons_existing (k : Bool) (p : Part) (rest : List Part)
    (blob : Blob) (hp : p.inline_data = some blob)
    (hm : missingAtB rest = false) :
    processParts k (p :: rest) =
      (processParts k rest).map (fun r => (if k then [p] else []) ++ r) := by
  simp [processParts, hp, hm]

/-- A turn whose parts contain no binaries passes through unchanged. -/
theorem processParts_copy (k : Bool) (ps : List Part)
    (h : ∀ p ∈ ps, p.inline_data = none) : processParts k ps = some ps := by
  induction ps with
  | nil => rfl
  | cons p rest ih =>
    have hp : p.inline_data = none := h p (List.mem_cons_self p rest)
    have hr : processParts k rest = some rest :=
      ih (fun q hq => h q (List.mem_cons_of_mem p hq))
    simp [processParts, hp, hr]

/-- With `keep = true` the input parts survive, in order, in the output. -/
theorem processParts_sublist (ps out : List Part)
    (h : processParts true ps = some out) : ps.Sublist out := by
  induction ps generalizing out with
  | nil =>
    simp only [processParts, Option.some.injEq] at h
    exact h ▸ List.Sublist.refl []
  | cons p rest ih =>
    cases hp : p.inline_data with
    | none =>
      rw [processParts_cons_nonbin true p rest hp] at h
      cases hr : processParts true rest with
      | none => rw [hr] at h; simp at h
      | some r =>
        rw [hr] at h
        simp only [Option.map_some', Option.some.injEq] at h
        subst h
        exact List.Sublist.cons₂ p (ih r hr)
    | some blob =>
      by_cases hm : missingAtB rest = true
      · cases hd : blob.data with
        | none => rw [processParts_cons_missing_nodata true p rest blob hp hm hd] at h; simp at h
        | some bytes =>
          rw [processParts_cons_missing true p rest blob bytes hp hm hd] at h
          cases hr : processParts true rest with
          | none => rw [hr] at h; simp at h
          | some r =>
            rw [hr] at h
            simp only [Option.map_some', Option.some.injEq, if_true,
              List.singleton_append] at h
            subst h
            exact List.Sublist.cons₂ p (List.Sublist.cons _ (ih r hr))
      · rw [processParts_cons_existing true p rest blob hp
          (Bool.not_eq_true _ ▸ hm)] at h
        cases hr : processParts true rest with
        | none => rw [hr] at h; simp at h
        | some r =>
          rw [hr] at h
          simp only [Option.map_some', Option.some.injEq, if_true,
            List.singleton_append] at h
          subst h
          exact List.Sublist.cons₂ p (ih r hr)

/-- With `keep = false` no binary part survives in the output. -/
theorem processParts_false_nobin (ps out : List Part)
    (h : processParts false ps = some out) :
    ∀ q ∈ out, q.inline_data = none := by
  induction ps generalizing out with
  | nil =>
    simp only [processParts, Option.some.injEq] at h
    intro q hq
    rw [← h] at hq
    simp at hq
  | cons p rest ih =>
    cases hp : p.inline_data with
    | none =>
      rw [processParts_cons_nonbin false p rest hp] at h
      cases hr : processParts false rest with
      | none => rw [hr] at h; simp at h
      | some r =>
        rw [hr] at h
        simp only [Option.map_some', Option.some.injEq] at h
        subst h
        intro q hq
        rcases List.mem_cons.mp hq with hq | hq
        · exact hq ▸ hp
        · exact ih r hr q hq
    | some blob =>
      by_cases hm : missingAtB rest = true
      · cases hd : blob.data with
        | none => rw [processParts_cons_missing_nodata false p rest blob hp hm hd] at h; simp at h
        | some bytes =>
          rw [processParts_cons_missing false p rest blob bytes hp hm hd] at h
          cases hr : processParts false rest with
          | none => rw [hr] at h; simp at h
          | some r =>
            rw [hr] at h
            simp only [Option.map_some', Option.some.injEq] at h
            simp only [Bool.false_eq_true, if_false, List.nil_append] at h
            subst h
            intro q hq
            rcases List.mem_cons.mp hq with hq | hq
            · subst hq; rfl
            · exact ih r hr q hq
      · rw [processParts_cons_existing false p rest blob hp
          (Bool.not_eq_true _ ▸ hm)] at h
        cases hr : processParts false rest with
        | none => rw [hr] at h; simp at h
        | some r =>
          rw [hr] at h
          simp only [Option.map_some', Option.some.injEq] at h
          simp only [Bool.false_eq_true, if_false, List.nil_append] at h
          subst h
          exact ih r hr

/-- With `keep = true` the head of the turn is preserved. -/
theorem processParts_true_head (p : Part) (rest out : List Part)
    (h : processParts true (p :: rest) = some out) : ∃ r, out = p :: r := by
  cases hp : p.inline_data with
  | none =>
    rw [processParts_cons_nonbin true p rest hp] at h
    cases hr : processParts true rest with
    | none => rw [hr] at h; simp at h
    | some r =>
      rw [hr] at h
      simp only [Option.map_some', Option.some.injEq] at h
      exact ⟨r, h.symm⟩
  | some blob =>
    by_cases hm : missingAtB rest = true
    · cases hd : blob.data with
      | none => rw [processParts_cons_missing_nodata true p rest blob hp hm hd] at h; simp at h
      | some bytes =>
        rw [processParts_cons_missing true p rest blob bytes hp hm hd] at h
        cases hr : processParts true rest with
        | none => rw [hr] at h; simp at h
        | some r =>
          rw [hr] at h
          simp only [Option.map_some', Option.some.injEq, if_true,
            List.singleton_append] at h
          exact ⟨_, h.symm⟩
    · rw [processParts_cons_existing true p rest blob hp
        (Bool.not_eq_true _ ▸ hm)] at h
      cases hr : processParts true rest with
      | none => rw [hr] at h; simp at h
      | some r =>
        rw [hr] at h
        simp only [Option.map_some', Option.some.injEq, if_true,
          List.singleton_append] at h
        exact ⟨r, h.symm⟩

/-- Processing never turns a non-empty part list into an empty one. -/
theorem processParts_ne_nil (k : Bool) (ps out : List Part)
    (h : processParts k ps = some out) (hne : ps ≠ []) : out ≠ [] := by
  induction ps generalizing out with
  | nil => exact absurd rfl hne
  | cons p rest ih =>
    cases hp : p.inline_data with
    | none =>
      rw [processParts_cons_nonbin k p rest hp] at h
      cases hr : processParts k rest with
      | none => rw [hr] at h; simp at h
      | some r =>
        rw [hr] at h
        simp only [Option.map_some', Option.some.injEq] at h
        simp [← h]
    | some blob =>
      by_cases hm : missingAtB rest = true
      · cases hd : blob.data with
        | none => rw [processParts_cons_missing_nodata k p rest blob hp hm hd] at h; simp at h
        | some bytes =>
          rw [processParts_cons_missing k p rest blob bytes hp hm hd] at h
          cases hr : processParts k rest with
          | none => rw [hr] at h; simp at h
          | some r =>
            rw [hr] at h
            simp only [Option.map_some', Option.some.injEq] at h
            cases k <;>
              simp only [if_true, if_false, Bool.false_eq_true,
                List.singleton_append, List.nil_append] at h <;>
              simp [← h]
      · have hm' : missingAtB rest = false := Bool.not_eq_true _ ▸ hm
        rw [processParts_cons_existing k p rest blob hp hm'] at h
        cases hr : processParts k rest with
        | none => rw [hr] at h; simp at h
        | some r =>
          rw [hr] at h
          simp only [Option.map_some', Option.some.injEq] at h
          have hrestne : rest ≠ [] := by
            intro hempty
            rw [hempty] at hm'
            simp [missingAtB] at hm'
          have hrne := ih r hr hrestne
          cases k <;>
            simp only [if_true, if_false, Bool.false_eq_true,
              List.singleton_append, List.nil_append] at h <;>
            simp [← h, hrne]

/-- A retained (`keep = true`) turn comes out settled: every binary part is
immediately followed by an `"[IMAGE-ID "` text part. -/
theorem processParts_true_settled (ps out : List Part)
    (h : processParts true ps = some out) : settledParts out = true := by
  induction ps generalizing out with
  | nil =>
    simp only [processParts, Option.some.injEq] at h
    rw [← h]; rfl
  | cons p rest ih =>
    cases hp : p.inline_data with
    | none =>
      rw [processParts_cons_nonbin true p rest hp] at h
      cases hr : processParts true rest with
      | none => rw [hr] at h; simp at h
      | some r =>
        rw [hr] at h
        simp only [Option.map_some', Option.some.injEq] at h
        subst h
        have hsr := ih r hr
        simp [settledParts, hp, hsr]
    | some blob =>
      by_cases hm : missingAtB rest = true
      · cases hd : blob.data with
        | none => rw [processParts_cons_missing_nodata true p rest blob hp hm hd] at h; simp at h
        | some bytes =>
          rw [processParts_cons_missing true p rest blob bytes hp hm hd] at h
          cases hr : processParts true rest with
          | none => rw [hr] at h; simp at h
          | some r =>
            rw [hr] at h
            simp only [Option.map_some', Option.some.injEq, if_true,
              List.singleton_append] at h
            subst h
            have hsr := ih r hr
            have hph := isPlaceholderText_placeholder bytes
            simp [settledParts, hsr, hph, missingAtB, textPart_inline_data]
      · have hm' : missingAtB rest = false := Bool.not_eq_true _ ▸ hm
        rw [processParts_cons_existing true p rest blob hp hm'] at h
        cases hr : processParts true rest with
        | none => rw [hr] at h; simp at h
        | some r =>
          rw [hr] at h
          simp only [Option.map_some', Option.some.injEq, if_true,
            List.singleton_append] at h
          subst h
          cases rest with
          | nil => simp [missingAtB] at hm'
          | cons q rest₂ =>
            have hq : isPlaceholderText q = true := by
              simpa [missingAtB] using hm'
            obtain ⟨r₂, hr₂⟩ := processParts_true_head q rest₂ r hr
            subst hr₂
            have hsr := ih (q :: r₂) hr
            have hstep : settledParts (p :: q :: r₂) =
                ((p.inline_data.isNone || !(missingAtB (q :: r₂))) &&
                  settledParts (q :: r₂)) := rfl
            rw [hstep, hsr, Bool.and_true]
            simp [missingAtB, hq]

/-- A settled part list is a fixed point of the per-part loop when the turn
is within the retention window. -/
theorem processParts_settled_id (ps : List Part)
    (h : settledParts ps = true) : processParts true ps = some ps := by
  induction ps with
  | nil => rfl
  | cons p rest ih =>
    have hpair := Bool.and_eq_true_iff.mp h
    have hr := ih hpair.2
    cases hp : p.inline_data with
    | none => simp [processParts_cons_nonbin true p rest hp, hr]
    | some blob =>
      have hm : missingAtB rest = false := by
        have h1 := hpair.1
        rw [hp] at h1
        simpa using h1
      simp [processParts_cons_existing true p rest blob hp hm, hr]

/-- Success of the per-part loop does not depend on `keep`, and is exactly
`partsOkB`: the loop raises iff some payload-less binary lacks an existing
placeholder. -/
theorem processParts_isSome (k : Bool) (ps : List Part) :
    (processParts k ps).isSome = partsOkB ps := by
  induction ps with
  | nil => rfl
  | cons p rest ih =>
    cases hp : p.inline_data with
    | none =>
      rw [processParts_cons_nonbin k p rest hp]
      simp [partsOkB, hp, ← ih]
    | some blob =>
      by_cases hm : missingAtB rest = true
      · cases hd : blob.data with
        | none =>
          rw [processParts_cons_missing_nodata k p rest blob hp hm hd]
          simp [partsOkB, hp, hm, hd]
        | some bytes =>
          rw [processParts_cons_missing k p rest blob bytes hp hm hd]
          simp [partsOkB, hp, hm, hd, ← ih]
      · have hm' : missingAtB rest = false := Bool.not_eq_true _ ▸ hm
        rw [processParts_cons_existing k p rest blob hp hm']
        simp [partsOkB, hp, hm', ← ih]

/-! ## Lemmas about the main loop -/

theorem countableCheck_eq (c : Content) (b : Bool)
    (h : countableCheck c = some b) : isCountableB c = b := by
  unfold countableCheck at h
  by_cases hr : c.role = "user"
  · rw [if_pos hr] at h
    cases hps : c.parts with
    | nil => rw [hps] at h; simp at h
    | cons p rest =>
      rw [hps] at h
      simp only [Option.some.injEq] at h
      simp [isCountableB, hr, hps, ← h]
  · rw [if_neg hr] at h
    simp only [Option.some.injEq] at h
    simp [isCountableB, hr, ← h]

theorem modifyRev_cons_none (n : Nat) (c : Content) (older : List Content)
    (h : countableCheck c = none) : modifyRev n (c :: older) = none := by
  simp [modifyRev, h]

theorem modifyRev_cons_false (n : Nat) (c : Content) (older : List Content)
    (h : countableCheck c = some false) :
    modifyRev n (c :: older) = (modifyRev n older).map (fun r => c :: r) := by
  simp [modifyRev, h]

theorem modifyRev_cons_true (n : Nat) (c : Content) (older : List Content)
    (ps : List Part) (h : countableCheck c = some true)
    (hps : processParts (decide (n + 1 ≤ 3)) c.parts = some ps) :
    modifyRev n (c :: older) =
      (modifyRev (n + 1) older).map (fun r => { c with parts := ps } :: r) := by
  simp only [modifyRev, h]
  rw [hps]

theorem modifyRev_cons_true_none (n : Nat) (c : Content) (older : List Content)
    (h : countableCheck c = some true)
    (hps : processParts (decide (n + 1 ≤ 3)) c.parts = none) :
    modifyRev n (c :: older) = none := by
  simp only [modifyRev, h]
  rw [hps]

/-- Positional description of one pass of the reverse traversal, for an
arbitrary starting `user_message_count` `n`: the turn at position `i` of the
reversed list is processed with counter
`n + (number of countable turns at positions ≤ i)`. -/
theorem modifyRev_spec (l : List Content) : ∀ (n : Nat) (out : List Content),
    modifyRev n l = some out →
    out.length = l.length ∧
    ∀ (i : Nat) (c : Content), l[i]? = some c →
      (isCountableB c = false → out[i]? = some c) ∧
      (isCountableB c = true →
        ∃ ps, processParts
            (decide (n + ((l.take (i + 1)).filter isCountableB).length ≤ 3))
            c.parts = some ps ∧
          out[i]? = some { c with parts := ps }) := by
  induction l with
  | nil =>
    intro n out h
    simp only [modifyRev, Option.some.injEq] at h
    subst h
    exact ⟨rfl, fun i c hc => by simp at hc⟩
  | cons c₀ older ih =>
    intro n out h
    cases hcc : countableCheck c₀ with
    | none => rw [modifyRev_cons_none n c₀ older hcc] at h; simp at h
    | some b =>
      cases b with
      | false =>
        rw [modifyRev_cons_false n c₀ older hcc] at h
        cases hrec : modifyRev n older with
        | none => rw [hrec] at h; simp at h
        | some r =>
          rw [hrec] at h
          simp only [Option.map_some', Option.some.injEq] at h
          subst h
          obtain ⟨hlen, hpos⟩ := ih n r hrec
          have hc₀ : isCountableB c₀ = false := countableCheck_eq c₀ false hcc
          refine ⟨by simp [hlen], ?_⟩
          intro i c hc
          cases i with
          | zero =>
            rw [List.getElem?_cons_zero, Option.some.injEq] at hc
            subst hc
            exact ⟨fun _ => by simp, fun htrue => absurd htrue (by simp [hc₀])⟩
          | succ i =>
            rw [List.getElem?_cons_succ] at hc
            have := hpos i c hc
            refine ⟨fun hfalse => ?_, fun htrue => ?_⟩
            · rw [List.getElem?_cons_succ]
              exact this.1 hfalse
            · obtain ⟨ps, hps, hout⟩ := this.2 htrue
              refine ⟨ps, ?_, by rw [List.getElem?_cons_succ]; exact hout⟩
              have harith :
                  (((c₀ :: older).take (i + 1 + 1)).filter isCountableB).length =
                    ((older.take (i + 1)).filter isCountableB).length := by
                simp [List.take_succ_cons, List.filter_cons, hc₀]
              rw [harith]
              exact hps
      | true =>
        cases hps₀ : processParts (decide (n + 1 ≤ 3)) c₀.parts with
        | none => rw [modifyRev_cons_true_none n c₀ older hcc hps₀] at h; simp at h
        | some ps₀ =>
          rw [modifyRev_cons_true n c₀ older ps₀ hcc hps₀] at h
          cases hrec : modifyRev (n + 1) older with
          | none => rw [hrec] at h; simp at h
          | some r =>
            rw [hrec] at h
            simp only [Option.map_some', Option.some.injEq] at h
            subst h
            obtain ⟨hlen, hpos⟩ := ih (n + 1) r hrec
            have hc₀ : isCountableB c₀ = true := countableCheck_eq c₀ true hcc
            refine ⟨by simp [hlen], ?_⟩
            intro i c hc
            cases i with
            | zero =>
              rw [List.getElem?_cons_zero, Option.some.injEq] at hc
              subst hc
              refine ⟨fun hfalse => absurd hfalse (by simp [hc₀]), fun _ => ?_⟩
              refine ⟨ps₀, ?_, by simp⟩
              have harith :
                  n + (((c₀ :: older).take 1).filter isCountableB).length = n + 1 := by
                simp [List.filter_cons, hc₀]
              rw [harith]
              exact hps₀
            | succ i =>
              rw [List.getElem?_cons_succ] at hc
              have := hpos i c hc
              refine ⟨fun hfalse => ?_, fun htrue => ?_⟩
              · rw [List.getElem?_cons_succ]
                exact this.1 hfalse
              · obtain ⟨ps, hps, hout⟩ := this.2 htrue
                refine ⟨ps, ?_, by rw [List.getElem?_cons_succ]; exact hout⟩
                have harith :
                    n + (((c₀ :: older).take (i + 1 + 1)).filter isCountableB).length =
                      n + 1 + ((older.take (i + 1)).filter isCountableB).length := by
                  simp [List.take_succ_cons, List.filter_cons, hc₀]
                  omega
                rw [harith]
                exact hps

/-- Positional description of one full run of
`modify_image_data_in_history` in chronological indices: the countable user
turn at index `i` has its parts rewritten by the per-part loop with
`keep = (countCountableFrom h i ≤ 3)`; every other turn is untouched. -/
theorem modify_spec (h out : List Content)
    (hm : modify_image_data_in_history h = some out) :
    out.length = h.length ∧
    ∀ (i : Nat) (c : Content), h[i]? = some c →
      (isCountableB c = false → out[i]? = some c) ∧
      (isCountableB c = true →
        ∃ ps, processParts (decide (countCountableFrom h i ≤ 3)) c.parts = some ps ∧
          out[i]? = some { c with parts := ps }) := by
  unfold modify_image_data_in_history at hm
  cases hrev : modifyRev 0 h.reverse with
  | none => rw [hrev] at hm; simp at hm
  | some outRev =>
    rw [hrev] at hm
    simp only [Option.map_some', Option.some.injEq] at hm
    subst hm
    obtain ⟨hlen, hpos⟩ := modifyRev_spec h.reverse 0 outRev hrev
    rw [List.length_reverse] at hlen
    have hlen' : outRev.reverse.length = h.length := by
      rw [List.length_reverse]; exact hlen
    refine ⟨hlen', ?_⟩
    intro i c hc
    have hi : i < h.length := by
      rcases List.getElem?_eq_some.mp hc with ⟨hlt, _⟩
      exact hlt
    have hj : h.length - 1 - i < h.reverse.length := by
      rw [List.length_reverse]; omega
    have hrevget : h.reverse[h.length - 1 - i]? = some c := by
      rw [List.getElem?_reverse (by rw [List.length_reverse] at hj; exact hj)]
      have : h.length - 1 - (h.length - 1 - i) = i := by omega
      rw [this]
      exact hc
    have houtget : ∀ d : Content,
        outRev[h.length - 1 - i]? = some d → outRev.reverse[i]? = some d := by
      intro d hd
      have hi' : i < outRev.length := by rw [hlen]; omega
      rw [List.getElem?_reverse hi', hlen]
      exact hd
    obtain ⟨hncase, hccase⟩ := hpos (h.length - 1 - i) c hrevget
    refine ⟨fun hfalse => houtget c (hncase hfalse), fun htrue => ?_⟩
    obtain ⟨ps, hps, hout⟩ := hccase htrue
    refine ⟨ps, ?_, houtget _ hout⟩
    have htake : h.reverse.take (h.length - 1 - i + 1) = (h.drop i).reverse := by
      have h1 : h.length - 1 - i + 1 = h.length - i := by omega
      rw [h1, List.take_reverse]
      have h2 : h.length - (h.length - i) = i := by omega
      rw [h2]
    have harith :
        0 + ((h.reverse.take (h.length - 1 - i + 1)).filter isCountableB).length =
          countCountableFrom h i := by
      rw [htake, List.filter_reverse, List.length_reverse]
      simp [countCountableFrom]
    rw [harith] at hps
    exact hps

/-- Re-running a pass with any *smaller or equal* starting counter leaves an
already-processed history unchanged.  (In the second run counters can only
be smaller, because processing can only shrink the set of countable turns.) -/
theorem modifyRev_idem (l : List Content) : ∀ (n : Nat) (out : List Content),
    modifyRev n l = some out → ∀ m : Nat, m ≤ n → modifyRev m out = some out := by
  induction l with
  | nil =>
    intro n out h m _
    simp only [modifyRev, Option.some.injEq] at h
    subst h
    rfl
  | cons c older ih =>
    intro n out h m hmn
    cases hcc : countableCheck c with
    | none => rw [modifyRev_cons_none n c older hcc] at h; simp at h
    | some b =>
      cases b with
      | false =>
        rw [modifyRev_cons_false n c older hcc] at h
        cases hrec : modifyRev n older with
        | none => rw [hrec] at h; simp at h
        | some r =>
          rw [hrec] at h
          simp only [Option.map_some', Option.some.injEq] at h
          subst h
          rw [modifyRev_cons_false m c r hcc, ih n r hrec m hmn]
          rfl
      | true =>
        cases hps₀ : processParts (decide (n + 1 ≤ 3)) c.parts with
        | none => rw [modifyRev_cons_true_none n c older hcc hps₀] at h; simp at h
        | some ps₀ =>
          rw [modifyRev_cons_true n c older ps₀ hcc hps₀] at h
          cases hrec : modifyRev (n + 1) older with
          | none => rw [hrec] at h; simp at h
          | some r =>
            rw [hrec] at h
            simp only [Option.map_some', Option.some.injEq] at h
            subst h
            -- the processed parts are a fixed point of the per-part loop at
            -- the (smaller) counter value of the second pass
            have hfix : processParts (decide (m + 1 ≤ 3)) ps₀ = some ps₀ := by
              by_cases hn3 : n + 1 ≤ 3
              · have hkeep : decide (n + 1 ≤ 3) = true := by simp [hn3]
                rw [hkeep] at hps₀
                have hsettled := processParts_true_settled c.parts ps₀ hps₀
                have hm3 : decide (m + 1 ≤ 3) = true := by
                  simp only [decide_eq_true_eq]; omega
                rw [hm3]
                exact processParts_settled_id ps₀ hsettled
              · have hkeep : decide (n + 1 ≤ 3) = false := by simp [hn3]
                rw [hkeep] at hps₀
                have hnobin := processParts_false_nobin c.parts ps₀ hps₀
                exact processParts_copy _ ps₀ hnobin
            have hrole : c.role = "user" := by
              unfold countableCheck at hcc
              by_cases hr : c.role = "user"
              · exact hr
              · rw [if_neg hr] at hcc; simp at hcc
            have hcne : c.parts ≠ [] := by
              intro hempty
              unfold countableCheck at hcc
              rw [if_pos hrole, hempty] at hcc
              simp at hcc
            have hpsne : ps₀ ≠ [] :=
              processParts_ne_nil (decide (n + 1 ≤ 3)) c.parts ps₀ hps₀ hcne
            obtain ⟨p', ps', hps'⟩ := List.exists_cons_of_ne_nil hpsne
            have hcc' : countableCheck { c with parts := ps₀ } =
                some p'.function_response.isNone := by
              simp [countableCheck, hrole, hps']
            cases hb₂ : p'.function_response.isNone with
            | true =>
              rw [hb₂] at hcc'
              have hir := ih (n + 1) r hrec (m + 1) (by omega)
              rw [modifyRev_cons_true m { c with parts := ps₀ } r ps₀ hcc' hfix, hir]
              rfl
            | false =>
              rw [hb₂] at hcc'
              have hir := ih (n + 1) r hrec m (by omega)
              rw [modifyRev_cons_false m { c with parts := ps₀ } r hcc', hir]
              rfl

/-- Success of one pass does not depend on the starting counter and is
exactly `turnOkB` at every turn. -/
theorem modifyRev_isSome (l : List Content) :
    ∀ n : Nat, (modifyRev n l).isSome = l.all turnOkB := by
  induction l with
  | nil => intro n; rfl
  | cons c older ih =>
    intro n
    cases hcc : countableCheck c with
    | none =>
      rw [modifyRev_cons_none n c older hcc]
      have hrole : c.role = "user" ∧ c.parts = [] := by
        unfold countableCheck at hcc
        by_cases hr : c.role = "user"
        · rw [if_pos hr] at hcc
          cases hps : c.parts with
          | nil => exact ⟨hr, rfl⟩
          | cons p rest => rw [hps] at hcc; simp at hcc
        · rw [if_neg hr] at hcc; simp at hcc
      have : turnOkB c = false := by
        simp [turnOkB, hrole.1, hrole.2]
      simp [this]
    | some b =>
      cases b with
      | false =>
        rw [modifyRev_cons_false n c older hcc]
        have hok : turnOkB c = true := by
          unfold countableCheck at hcc
          by_cases hr : c.role = "user"
          · rw [if_pos hr] at hcc
            cases hps : c.parts with
            | nil => rw [hps] at hcc; simp at hcc
            | cons p rest =>
              rw [hps] at hcc
              simp only [Option.some.injEq] at hcc
              simp [turnOkB, hr, hps, hcc]
          · simp [turnOkB, hr]
        simp [hok, ih n]
      | true =>
        have hrole : c.role = "user" := by
          unfold countableCheck at hcc
          by_cases hr : c.role = "user"
          · exact hr
          · rw [if_neg hr] at hcc; simp at hcc
        have hparts : ∃ p rest, c.parts = p :: rest ∧
            p.function_response.isNone = true := by
          unfold countableCheck at hcc
          rw [if_pos hrole] at hcc
          cases hps : c.parts with
          | nil => rw [hps] at hcc; simp at hcc
          | cons p rest =>
            rw [hps] at hcc
            simp only [Option.some.injEq] at hcc
            exact ⟨p, rest, rfl, hcc⟩
        obtain ⟨p, rest, hps, hfr⟩ := hparts
        have hok : turnOkB c = partsOkB c.parts := by
          simp [turnOkB, hrole, hps, hfr]
        cases hpp : processParts (decide (n + 1 ≤ 3)) c.parts with
        | none =>
          rw [modifyRev_cons_true_none n c older hcc hpp]
          have : partsOkB c.parts = false := by
            rw [← processParts_isSome (decide (n + 1 ≤ 3)), hpp]
            rfl
          simp [List.all_cons, hok, this]
        | some ps =>
          rw [modifyRev_cons_true n c older ps hcc hpp]
          have : partsOkB c.parts = true := by
            rw [← processParts_isSome (decide (n + 1 ≤ 3)), hpp]
            rfl
          simp [List.all_cons, hok, this, ih (n + 1)]

/-- Success of the full run is `turnOkB` at every turn: the source raises
exactly when some user-role turn has no parts, or some countable user turn
holds a payload-less binary whose placeholder is missing. -/
theorem modify_isSome (h : List Content) :
    (modify_image_data_in_history h).isSome = h.all turnOkB := by
  unfold modify_image_data_in_history
  rw [← List.all_reverse, ← modifyRev_isSome h.reverse 0]
  cases modifyRev 0 h.reverse <;> rfl

/-! ## Lemmas for the placeholder invariant -/

theorem goodParts_cons (p : Part) (rest : List Part)
    (h : goodParts (p :: rest) = true) :
    goodGuard p rest = true ∧ goodParts rest = true :=
  Bool.and_eq_true_iff.mp h

theorem wfParts_tail (p : Part) (rest : List Part)
    (h : wfParts (p :: rest) = true) : wfParts rest = true := by
  unfold wfParts at h ⊢
  rw [List.all_cons] at h
  exact (Bool.and_eq_true_iff.mp h).2

theorem wf_binary_no_text (p : Part) (rest : List Part) (blob : Blob)
    (hw : wfParts (p :: rest) = true) (hp : p.inline_data = some blob) :
    p.text = none := by
  unfold wfParts at hw
  rw [List.all_cons] at hw
  have h1 := (Bool.and_eq_true_iff.mp hw).1
  rw [hp] at h1
  cases ht : p.text with
  | none => rfl
  | some t => rw [ht] at h1; simp at h1

/-- The exact placeholder forced by `goodParts` at a binary whose
placeholder already exists. -/
theorem goodParts_existing (p : Part) (q : Part) (rest₂ : List Part)
    (blob : Blob) (bytes : List Nat) (hp : p.inline_data = some blob)
    (hd : blob.data = some bytes)
    (hg : goodParts (p :: q :: rest₂) = true)
    (hq : isPlaceholderText q = true) :
    q = textPart (placeholderFor bytes) := by
  have h1 := (goodParts_cons p (q :: rest₂) hg).1
  unfold goodGuard at h1
  rw [hp] at h1
  simp only [hq, Bool.not_true, Bool.false_or, hd] at h1
  exact of_decide_eq_true h1

/-- Every binary part of a countable turn that carries bytes has its exact
placeholder text part present in the output, whether retained or dropped. -/
theorem processParts_ph_mem (k : Bool) (ps out : List Part)
    (hg : goodParts ps = true) (h : processParts k ps = some out) :
    ∀ (p : Part) (blob : Blob) (bytes : List Nat), p ∈ ps →
      p.inline_data = some blob → blob.data = some bytes →
      textPart (placeholderFor bytes) ∈ out := by
  induction ps generalizing out with
  | nil =>
    intro p blob bytes hmem
    simp at hmem
  | cons p₀ rest ih =>
    intro p blob bytes hmem hpb hbd
    have hgr := (goodParts_cons p₀ rest hg).2
    rcases List.mem_cons.mp hmem with heq | hmem'
    · subst heq
      by_cases hm : missingAtB rest = true
      · rw [processParts_cons_missing k p rest blob bytes hpb hm hbd] at h
        cases hr : processParts k rest with
        | none => rw [hr] at h; simp at h
        | some r =>
          rw [hr] at h
          simp only [Option.map_some', Option.some.injEq] at h
          subst h
          cases k <;> simp
      · have hm' : missingAtB rest = false := Bool.not_eq_true _ ▸ hm
        cases rest with
        | nil => simp [missingAtB] at hm'
        | cons q rest₂ =>
          have hq : isPlaceholderText q = true := by
            simpa [missingAtB] using hm'
          have hqeq := goodParts_existing p q rest₂ blob bytes hpb hbd hg hq
          rw [processParts_cons_existing k p (q :: rest₂) blob hpb hm'] at h
          cases hr : processParts k (q :: rest₂) with
          | none => rw [hr] at h; simp at h
          | some r =>
            rw [hr] at h
            simp only [Option.map_some', Option.some.injEq] at h
            subst h
            have hqnb : q.inline_data = none := by rw [hqeq]; rfl
            rw [processParts_cons_nonbin k q rest₂ hqnb] at hr
            cases hr₂ : processParts k rest₂ with
            | none => rw [hr₂] at hr; simp at hr
            | some r₂ =>
              rw [hr₂] at hr
              simp only [Option.map_some', Option.some.injEq] at hr
              subst hr
              rw [← hqeq]
              cases k <;> simp
    · -- the binary sits in the tail: its placeholder lands in the suffix
      -- produced from the tail, which is a suffix of the whole output
      cases hp₀ : p₀.inline_data with
      | none =>
        rw [processParts_cons_nonbin k p₀ rest hp₀] at h
        cases hr : processParts k rest with
        | none => rw [hr] at h; simp at h
        | some r =>
          rw [hr] at h
          simp only [Option.map_some', Option.some.injEq] at h
          subst h
          exact List.mem_cons_of_mem p₀ (ih r hgr hr p blob bytes hmem' hpb hbd)
      | some blob₀ =>
        by_cases hm : missingAtB rest = true
        · cases hd₀ : blob₀.data with
          | none => rw [processParts_cons_missing_nodata k p₀ rest blob₀ hp₀ hm hd₀] at h; simp at h
          | some bytes₀ =>
            rw [processParts_cons_missing k p₀ rest blob₀ bytes₀ hp₀ hm hd₀] at h
            cases hr : processParts k rest with
            | none => rw [hr] at h; simp at h
            | some r =>
              rw [hr] at h
              simp only [Option.map_some', Option.some.injEq] at h
              subst h
              have := ih r hgr hr p blob bytes hmem' hpb hbd
              cases k <;> simp [this]
        · have hm' : missingAtB rest = false := Bool.not_eq_true _ ▸ hm
          rw [processParts_cons_existing k p₀ rest blob₀ hp₀ hm'] at h
          cases hr : processParts k rest with
          | none => rw [hr] at h; simp at h
          | some r =>
            rw [hr] at h
            simp only [Option.map_some', Option.some.injEq] at h
            subst h
            have := ih r hgr hr p blob bytes hmem' hpb hbd
            cases k <;> simp [this]

/-- A part list with no binaries is trivially placeheld. -/
theorem placeheldParts_of_nobin (ps : List Part)
    (h : ∀ q ∈ ps, q.inline_data = none) : placeheldParts ps = true := by
  induction ps with
  | nil => rfl
  | cons p rest ih =>
    have hp : p.inline_data = none := h p (List.mem_cons_self p rest)
    have hr := ih (fun q hq => h q (List.mem_cons_of_mem p hq))
    simp [placeheldParts, placeheldGuard, hp, hr]

/-- A retained countable turn of a well-formed, good history comes out with
every byte-carrying binary immediately followed by its exact placeholder. -/
theorem processParts_true_placeheld (ps out : List Part)
    (hw : wfParts ps = true) (hg : goodParts ps = true)
    (h : processParts true ps = some out) : placeheldParts out = true := by
  induction ps generalizing out with
  | nil =>
    simp only [processParts, Option.some.injEq] at h
    rw [← h]; rfl
  | cons p rest ih =>
    have hwr := wfParts_tail p rest hw
    have hgr := (goodParts_cons p rest hg).2
    cases hp : p.inline_data with
    | none =>
      rw [processParts_cons_nonbin true p rest hp] at h
      cases hr : processParts true rest with
      | none => rw [hr] at h; simp at h
      | some r =>
        rw [hr] at h
        simp only [Option.map_some', Option.some.injEq] at h
        subst h
        have := ih r hwr hgr hr
        simp [placeheldParts, placeheldGuard, hp, this]
    | some blob =>
      by_cases hm : missingAtB rest = true
      · cases hd : blob.data with
        | none => rw [processParts_cons_missing_nodata true p rest blob hp hm hd] at h; simp at h
        | some bytes =>
          rw [processParts_cons_missing true p rest blob bytes hp hm hd] at h
          cases hr : processParts true rest with
          | none => rw [hr] at h; simp at h
          | some r =>
            rw [hr] at h
            simp only [Option.map_some', Option.some.injEq, if_true,
              List.singleton_append] at h
            subst h
            have hrest := ih r hwr hgr hr
            have hstep : placeheldParts
                (p :: textPart (placeholderFor bytes) :: r) =
                (placeheldGuard p (textPart (placeholderFor bytes) :: r) &&
                  (placeheldGuard (textPart (placeholderFor bytes)) r &&
                    placeheldParts r)) := rfl
            rw [hstep, hrest]
            have hg1 : placeheldGuard p (textPart (placeholderFor bytes) :: r) = true := by
              simp [placeheldGuard, hp, hd]
            have hg2 : placeheldGuard (textPart (placeholderFor bytes)) r = true := by
              simp [placeheldGuard, textPart_inline_data]
            rw [hg1, hg2]
            rfl
      · have hm' : missingAtB rest = false := Bool.not_eq_true _ ▸ hm
        cases rest with
        | nil => simp [missingAtB] at hm'
        | cons q rest₂ =>
          have hq : isPlaceholderText q = true := by
            simpa [missingAtB] using hm'
          cases hd : blob.data with
          | some bytes =>
            have hqeq := goodParts_existing p q rest₂ blob bytes hp hd hg hq
            rw [processParts_cons_existing true p (q :: rest₂) blob hp hm'] at h
            cases hr : processParts true (q :: rest₂) with
            | none => rw [hr] at h; simp at h
            | some r =>
              rw [hr] at h
              simp only [Option.map_some', Option.some.injEq, if_true,
                List.singleton_append] at h
              subst h
              obtain ⟨r₂, hr₂⟩ := processParts_true_head q rest₂ r hr
              subst hr₂
              have hrest := ih (q :: r₂) hwr hgr hr
              have hstep : placeheldParts (p :: q :: r₂) =
                  (placeheldGuard p (q :: r₂) && placeheldParts (q :: r₂)) := rfl
              rw [hstep, hrest]
              have hg1 : placeheldGuard p (q :: r₂) = true := by
                simp [placeheldGuard, hp, hd, hqeq]
              rw [hg1]
              rfl
          | none =>
            rw [processParts_cons_existing true p (q :: rest₂) blob hp hm'] at h
            cases hr : processParts true (q :: rest₂) with
            | none => rw [hr] at h; simp at h
            | some r =>
              rw [hr] at h
              simp only [Option.map_some', Option.some.injEq, if_true,
                List.singleton_append] at h
              subst h
              have hrest := ih r hwr hgr hr
              have hstep : placeheldParts (p :: r) =
                  (placeheldGuard p r && placeheldParts r) := rfl
              rw [hstep, hrest]
              have hg1 : placeheldGuard p r = true := by
                simp [placeheldGuard, hp, hd]
              rw [hg1]
              rfl

/-- Placeholder count bookkeeping: one run adds exactly one placeholder per
binary whose placeholder was missing, and never duplicates an existing
one. -/
theorem processParts_countP (k : Bool) (ps out : List Part)
    (hw : wfParts ps = true) (h : processParts k ps = some out) :
    out.countP isPlaceholderText =
      ps.countP isPlaceholderText + freshPhCount ps := by
  induction ps generalizing out with
  | nil =>
    simp only [processParts, Option.some.injEq] at h
    rw [← h]; rfl
  | cons p rest ih =>
    have hwr := wfParts_tail p rest hw
    cases hp : p.inline_data with
    | none =>
      rw [processParts_cons_nonbin k p rest hp] at h
      cases hr : processParts k rest with
      | none => rw [hr] at h; simp at h
      | some r =>
        rw [hr] at h
        simp only [Option.map_some', Option.some.injEq] at h
        subst h
        have hihr := ih r hwr hr
        have hfresh : freshPhCount (p :: rest) = freshPhCount rest := by
          simp [freshPhCount, hp]
        rw [List.countP_cons, List.countP_cons, hihr, hfresh]
        omega
    | some blob =>
      have hptext : p.text = none := wf_binary_no_text p rest blob hw hp
      have hpph : isPlaceholderText p = false := by
        simp [isPlaceholderText, hptext]
      by_cases hm : missingAtB rest = true
      · cases hd : blob.data with
        | none => rw [processParts_cons_missing_nodata k p rest blob hp hm hd] at h; simp at h
        | some bytes =>
          rw [processParts_cons_missing k p rest blob bytes hp hm hd] at h
          cases hr : processParts k rest with
          | none => rw [hr] at h; simp at h
          | some r =>
            rw [hr] at h
            simp only [Option.map_some', Option.some.injEq] at h
            subst h
            have hihr := ih r hwr hr
            have hfresh : freshPhCount (p :: rest) = 1 + freshPhCount rest := by
              simp [freshPhCount, hp, hm]
            have hphc : isPlaceholderText (textPart (placeholderFor bytes)) = true :=
              isPlaceholderText_placeholder bytes
            cases k with
            | true =>
              simp only [if_true, List.singleton_append]
              rw [List.countP_cons, List.countP_cons, List.countP_cons,
                hihr, hfresh, hpph, hphc]
              simp only [Bool.false_eq_true, if_false, if_true, eq_self_iff_true]
              omega
            | false =>
              simp only [Bool.false_eq_true, if_false, List.nil_append]
              rw [List.countP_cons, List.countP_cons, hihr, hfresh, hpph, hphc]
              simp only [Bool.false_eq_true, if_false, if_true, eq_self_iff_true]
              omega
      · have hm' : missingAtB rest = false := Bool.not_eq_true _ ▸ hm
        rw [processParts_cons_existing k p rest blob hp hm'] at h
        cases hr : processParts k rest with
        | none => rw [hr] at h; simp at h
        | some r =>
          rw [hr] at h
          simp only [Option.map_some', Option.some.injEq] at h
          subst h
          have hihr := ih r hwr hr
          have hfresh : freshPhCount (p :: rest) = freshPhCount rest := by
            simp [freshPhCount, hm']
          cases k with
          | true =>
            simp only [if_true, List.singleton_append]
            rw [List.countP_cons, List.countP_cons, hihr, hfresh, hpph]
            simp only [Bool.false_eq_true, if_false, if_true, eq_self_iff_true]
            omega
          | false =>
            simp only [Bool.false_eq_true, if_false, List.nil_append]
            rw [List.countP_cons, hihr, hfresh, hpph]
            simp only [Bool.false_eq_true, if_false, if_true, eq_self_iff_true]
            omega

/-! ## Lemmas about the sanitizer -/

theorem pySplitGo_skip (sep : List Char) (c : Char) (rest : List Char)
    (n : Nat) : pySplitGo sep (c :: rest) (n + 1) = pySplitGo sep rest n := rfl

theorem pySplitGo_match (sep : List Char) (c : Char) (rest : List Char)
    (h : sep.isPrefixOf (c :: rest) = true) :
    pySplitGo sep (c :: rest) 0 =
      [] :: pySplitGo sep rest (sep.length - 1) := by
  simp [pySplitGo, h]

theorem pySplitGo_nomatch (sep : List Char) (c : Char) (rest : List Char)
    (h : sep.isPrefixOf (c :: rest) = false) :
    pySplitGo sep (c :: rest) 0 =
      match pySplitGo sep rest 0 with
      | [] => [[c]]
      | g :: gs => (c :: g) :: gs := by
  simp [pySplitGo, h]

theorem pySplitGo_ne_nil (sep : List Char) :
    ∀ (l : List Char) (n : Nat), pySplitGo sep l n ≠ [] := by
  intro l
  induction l with
  | nil => intro n; simp [pySplitGo]
  | cons c rest ih =>
    intro n
    cases n with
    | succ n => rw [pySplitGo_skip]; exact ih n
    | zero =>
      by_cases h : sep.isPrefixOf (c :: rest) = true
      · rw [pySplitGo_match sep c rest h]; simp
      · rw [pySplitGo_nomatch sep c rest (Bool.not_eq_true _ ▸ h)]
        cases pySplitGo sep rest 0 <;> simp

/-- When the separator does not occur, Python split returns the whole
string as its only piece. -/
theorem pySplitGo_no_occur (sep : List Char) :
    ∀ l : List Char, hasOccur sep l = false → pySplitGo sep l 0 = [l] := by
  intro l
  induction l with
  | nil => intro _; rfl
  | cons c rest ih =>
    intro h
    have h2 := by simpa [hasOccur] using h
    rw [pySplitGo_nomatch sep c rest
      (by simpa [Bool.not_eq_true] using h2.1)]
    rw [ih h2.2]

/-- When the separator occurs, Python split returns at least two pieces. -/
theorem pySplitGo_occur (sep : List Char) :
    ∀ l : List Char, hasOccur sep l = true →
      2 ≤ (pySplitGo sep l 0).length := by
  intro l
  induction l with
  | nil => intro h; simp [hasOccur] at h
  | cons c rest ih =>
    intro h
    by_cases hpre : sep.isPrefixOf (c :: rest) = true
    · rw [pySplitGo_match sep c rest hpre]
      have := pySplitGo_ne_nil sep rest (sep.length - 1)
      cases hgo : pySplitGo sep rest (sep.length - 1) with
      | nil => exact absurd hgo this
      | cons g gs => simp
    · have hpre' : sep.isPrefixOf (c :: rest) = false := Bool.not_eq_true _ ▸ hpre
      have hrest : hasOccur sep rest = true := by
        have := h
        simp only [hasOccur, hpre', Bool.false_or] at this
        exact this
      rw [pySplitGo_nomatch sep c rest hpre']
      have := ih hrest
      cases hgo : pySplitGo sep rest 0 with
      | nil => simp [hgo] at this
      | cons g gs =>
        rw [hgo] at this
        simpa using this

/-- `"ID "` does not straddle the appended final `"]"`: if it does not occur
in `s`, it does not occur in `s ++ "]"`. -/
theorem hasOccur_append_rbracket (s : List Char)
    (h : hasOccur (str "ID ") s = false) :
    hasOccur (str "ID ") (s ++ str "]") = false := by
  induction s with
  | nil => decide
  | cons c rest ih =>
    have h2 : (str "ID ").isPrefixOf (c :: rest) = false ∧
        hasOccur (str "ID ") rest = false := by
      simpa [hasOccur, Bool.not_eq_true] using h
    have hrest := ih h2.2
    have hpre : (str "ID ").isPrefixOf (c :: (rest ++ str "]")) = false := by
      cases rest with
      | nil => simp [str, List.isPrefixOf]
      | cons d rest₂ =>
        cases rest₂ with
        | nil => simp [str, List.isPrefixOf]
        | cons e rest₃ =>
          have h1 := h2.1
          simp only [str, List.isPrefixOf, Bool.and_eq_true] at h1 ⊢
          simpa using h1
    rw [List.cons_append]
    show ((str "ID ").isPrefixOf (c :: (rest ++ str "]")) ||
        hasOccur (str "ID ") (rest ++ str "]")) = false
    rw [hpre, hrest]
    rfl

/-- Splitting `s ++ "]"` on `"]"` when `s` has no `"]"`: the first piece is
exactly `s`. -/
theorem pySplit_rbracket (s : List Char) (h : ']' ∉ s) :
    pySplitGo (str "]") (s ++ str "]") 0 = [s, []] := by
  induction s with
  | nil => decide
  | cons c rest ih =>
    have hc : c ≠ ']' := fun heq => h (heq ▸ List.mem_cons_self c rest)
    have hpre : (str "]").isPrefixOf (c :: (rest ++ str "]")) = false := by
      simp only [str, List.isPrefixOf, Bool.and_eq_true]
      simp [Ne.symm hc]
    rw [List.cons_append, pySplitGo_nomatch _ c _ hpre,
      ih (fun hmem => h (List.mem_cons_of_mem c hmem))]

/-- Splitting the wrapped id `"[IMAGE-ID " ++ s ++ "]"` on `"ID "` when
`"ID "` does not occur in `s`: the pieces are `"[IMAGE-"` and `s ++ "]"`. -/
theorem pySplit_wrapped (s : List Char)
    (h : hasOccur (str "ID ") s = false) :
    pySplitGo (str "ID ") (str "[IMAGE-ID " ++ (s ++ str "]")) 0 =
      [str "[IMAGE-", s ++ str "]"] := by
  have hfull : str "[IMAGE-ID " ++ (s ++ str "]") =
      '[' :: 'I' :: 'M' :: 'A' :: 'G' :: 'E' :: '-' :: 'I' :: 'D' :: ' ' ::
        (s ++ str "]") := rfl
  rw [hfull]
  rw [pySplitGo_nomatch _ '[' _ (by simp [str, List.isPrefixOf])]
  rw [pySplitGo_nomatch _ 'I' _ (by simp [str, List.isPrefixOf])]
  rw [pySplitGo_nomatch _ 'M' _ (by simp [str, List.isPrefixOf])]
  rw [pySplitGo_nomatch _ 'A' _ (by simp [str, List.isPrefixOf])]
  rw [pySplitGo_nomatch _ 'G' _ (by simp [str, List.isPrefixOf])]
  rw [pySplitGo_nomatch _ 'E' _ (by simp [str, List.isPrefixOf])]
  rw [pySplitGo_nomatch _ '-' _ (by simp [str, List.isPrefixOf])]
  rw [pySplitGo_match _ 'I' _ (by simp [str, List.isPrefixOf])]
  rw [show (str "ID ").length - 1 = 2 from rfl]
  rw [pySplitGo_skip, pySplitGo_skip]
  rw [pySplitGo_no_occur _ _ (hasOccur_append_rbracket s h)]
  rfl

/-! ## Claim theorems -/

/-- Claim C1: for every history, after one successful run, a countable user
turn keeps all its parts (in particular its inline binary) exactly when it
is among the 3 most recent countable user turns (`countCountableFrom ≤ 3`);
every older countable turn retains no inline binary at all.  With one image
per countable turn this makes the retained set exactly the `min(K,3)` most
recent countable turns; the 5-turn instance is `C1_retention_boundary_witness`. -/
theorem C1_retention_boundary (h out : List Content)
    (hm : modify_image_data_in_history h = some out)
    (t : Nat) (c : Content) (hc : h[t]? = some c)
    (hcount : isCountableB c = true) :
    ∃ cOut, out[t]? = some cOut ∧
      (countCountableFrom h t ≤ 3 → c.parts.Sublist cOut.parts) ∧
      (3 < countCountableFrom h t → ∀ q ∈ cOut.parts, q.inline_data = none) ∧
      ((∃ p ∈ c.parts, p.inline_data.isSome) →
        ((∃ q ∈ cOut.parts, q.inline_data.isSome) ↔
          countCountableFrom h t ≤ 3)) := by
  obtain ⟨ps, hps, hout⟩ := ((modify_spec h out hm).2 t c hc).2 hcount
  refine ⟨{ c with parts := ps }, hout, ?_, ?_, ?_⟩
  · intro hle
    have hk : decide (countCountableFrom h t ≤ 3) = true := by simp [hle]
    rw [hk] at hps
    exact processParts_sublist c.parts ps hps
  · intro hgt
    have hk : decide (countCountableFrom h t ≤ 3) = false := by
      simp only [decide_eq_false_iff_not]
      omega
    rw [hk] at hps
    exact processParts_false_nobin c.parts ps hps
  · intro himg
    constructor
    · rintro ⟨q, hq, hqb⟩
      by_contra hgt
      have hgt' : 3 < countCountableFrom h t := by omega
      have hk : decide (countCountableFrom h t ≤ 3) = false := by
        simp only [decide_eq_false_iff_not]
        omega
      rw [hk] at hps
      have := processParts_false_nobin c.parts ps hps q hq
      rw [this] at hqb
      simp at hqb
    · intro hle
      obtain ⟨p, hp, hpb⟩ := himg
      have hk : decide (countCountableFrom h t ≤ 3) = true := by simp [hle]
      rw [hk] at hps
      exact ⟨p, (processParts_sublist c.parts ps hps).subset hp, hpb⟩

/-- Claim C1 witness (Scenario A): in the 5-turn history U1..U5 the oldest
turn U1 has counter 5 > 3 and retains no binary; the full output is the
computed `scenarioAOut` (placeholder-only U1, U2; image + placeholder
U3..U5). -/
theorem C1_retention_boundary_witness :
    modify_image_data_in_history scenarioA = some scenarioAOut ∧
    ∃ cOut, scenarioAOut[0]? = some cOut ∧
      ∀ q ∈ cOut.parts, q.inline_data = none := by
  refine ⟨by decide, ?_⟩
  obtain ⟨cOut, hout, _, hdrop, _⟩ :=
    C1_retention_boundary scenarioA scenarioAOut (by decide) 0 (imgTurn 1)
      (by decide) (by decide)
  exact ⟨cOut, hout, hdrop (by decide)⟩

/-- Claim C2: the compactor is idempotent — running it twice yields the
same history as running it once (and if the first run raises, there is no
second run). -/
theorem C2_idempotent (h : List Content) :
    (modify_image_data_in_history h).bind modify_image_data_in_history =
      modify_image_data_in_history h := by
  cases hm : modify_image_data_in_history h with
  | none => rfl
  | some out =>
    show modify_image_data_in_history out = some out
    unfold modify_image_data_in_history at hm ⊢
    cases hrev : modifyRev 0 h.reverse with
    | none => rw [hrev] at hm; simp at hm
    | some outRev =>
      rw [hrev] at hm
      simp only [Option.map_some', Option.some.injEq] at hm
      subst hm
      rw [List.reverse_reverse,
        modifyRev_idem h.reverse 0 outRev hrev 0 (le_refl 0)]
      rfl

/-- Claim C4 counterexample: the function is not total.  A `role = "user"`
turn with an empty part sequence makes `content.parts[0]` raise an
`IndexError` (modelled by `none`) instead of passing through unchanged, and
a countable turn holding a payload-less binary with no existing placeholder
raises a `TypeError` in `hashlib.sha256(None)`. -/
theorem C4_counterexample :
    modify_image_data_in_history [Content.mk "user" []] = none ∧
    modify_image_data_in_history
      [Content.mk "user" [{ inline_data := some ⟨none⟩ }]] = none := by
  decide

/-- Claim C4 as amended: the run succeeds exactly on histories whose turns
all satisfy `turnOkB` — every `role = "user"` turn has a non-empty part
list, and in every countable turn each binary part either carries a payload
or already has its placeholder text behind it.  (In particular a text part
with absent content and a payload-less binary with an existing placeholder
are handled gracefully, but an empty-parts user turn or a payload-less
binary needing a fresh placeholder raises.) -/
theorem C4_totality (h : List Content) :
    (modify_image_data_in_history h).isSome = h.all turnOkB :=
  modify_isSome h

/-- Claim C5: non-countable turns (assistant turns, and tool-result turns
with `role = "user"` whose first part is a function response) are left
byte-for-byte unchanged at their position, and contribute nothing to the
retention counter. -/
theorem C5_non_countable_untouched :
    (∀ (h out : List Content), modify_image_data_in_history h = some out →
      out.length = h.length ∧
      ∀ (t : Nat) (c : Content), h[t]? = some c → isCountableB c = false →
        out[t]? = some c) ∧
    (∀ c : Content, isCountableB c = false →
      ∀ h : List Content, countCountableFrom (c :: h) 0 = countCountableFrom h 0) := by
  constructor
  · intro h out hm
    refine ⟨(modify_spec h out hm).1, ?_⟩
    intro t c hc hfalse
    exact ((modify_spec h out hm).2 t c hc).1 hfalse
  · intro c hc h
    simp [countCountableFrom, List.filter_cons, hc]

/-- Claim C5 witness (Scenario D): a tool-result turn with `role = "user"`
carrying an image keeps its image even though 5 countable turns exist. -/
theorem C5_non_countable_untouched_witness :
    (scenarioAOut ++ [toolTurn])[5]? = some toolTurn ∧
    binPart [9] ∈ toolTurn.parts := by
  refine ⟨?_, by decide⟩
  exact ((C5_non_countable_untouched.1 (scenarioA ++ [toolTurn])
    (scenarioAOut ++ [toolTurn]) (by decide)).2 5 toolTurn (by decide)
    (by decide))

theorem hexDigits_length (k : Nat) : ∀ n : Nat, (hexDigits k n).length = k := by
  induction k with
  | zero => intro n; rfl
  | succ k ih => intro n; simp [hexDigits, ih]

theorem hexChar_lower_hex :
    ∀ m : Nat, m < 16 →
      ((hexChar m).isDigit = true ∨ ('a' ≤ hexChar m ∧ hexChar m ≤ 'f')) := by
  decide

theorem hexDigits_mem (k : Nat) :
    ∀ n : Nat, ∀ ch ∈ hexDigits k n,
      ch.isDigit = true ∨ ('a' ≤ ch ∧ ch ≤ 'f') := by
  induction k with
  | zero => intro n ch hch; simp [hexDigits] at hch
  | succ k ih =>
    intro n ch hch
    simp only [hexDigits, List.mem_append, List.mem_singleton] at hch
    rcases hch with hch | hch
    · exact ih (n / 16) ch hch
    · subst hch
      exact hexChar_lower_hex (n % 16) (Nat.mod_lt n (by norm_num))

/-- Claim C3 counterexample: on a history whose binary already has a
spurious `"[IMAGE-ID "` text behind it, the run keeps the spurious text and
never inserts the placeholder actually derived from the binary's bytes, so
the claimed invariant fails as stated for this history. -/
theorem C3_counterexample :
    modify_image_data_in_history [advTurn] = some [advTurn] ∧
    textPart (placeholderFor [1]) ∉ advTurn.parts := by
  decide

/-- Claim C3 as amended: restricted to histories with discriminated-union
parts (`wfParts`) in which any pre-existing `"[IMAGE-ID "` text following a
binary is that binary's own placeholder (`goodParts` — true in particular
when no placeholder pre-exists, and for compactor output): after a
successful run, every byte-carrying binary of a countable turn has its
derived placeholder present in the output, every byte-carrying binary still
present is immediately followed by exactly its derived placeholder text
part, and the number of placeholder texts grows by exactly one per binary
whose placeholder was missing (no duplicates). -/
theorem C3_placeholder_invariant (h out : List Content)
    (hm : modify_image_data_in_history h = some out)
    (t : Nat) (c : Content) (hc : h[t]? = some c)
    (hcount : isCountableB c = true)
    (hw : wfParts c.parts = true) (hg : goodParts c.parts = true) :
    ∃ cOut, out[t]? = some cOut ∧
      (∀ (p : Part) (blob : Blob) (bytes : List Nat), p ∈ c.parts →
        p.inline_data = some blob → blob.data = some bytes →
        textPart (placeholderFor bytes) ∈ cOut.parts) ∧
      placeheldParts cOut.parts = true ∧
      cOut.parts.countP isPlaceholderText =
        c.parts.countP isPlaceholderText + freshPhCount c.parts := by
  obtain ⟨ps, hps, hout⟩ := ((modify_spec h out hm).2 t c hc).2 hcount
  refine ⟨{ c with parts := ps }, hout, ?_, ?_, ?_⟩
  · intro p blob bytes hp hpb hbd
    exact processParts_ph_mem _ c.parts ps hg hps p blob bytes hp hpb hbd
  · cases hk : decide (countCountableFrom h t ≤ 3) with
    | true =>
      rw [hk] at hps
      exact processParts_true_placeheld c.parts ps hw hg hps
    | false =>
      rw [hk] at hps
      exact placeheldParts_of_nobin ps (processParts_false_nobin c.parts ps hps)
  · exact processParts_countP _ c.parts ps hw hps

/-- Claim C3 witness: a fresh one-image history; after the run the image's
derived placeholder is present and the turn is placeheld. -/
theorem C3_placeholder_invariant_witness :
    ∃ cOut, ([⟨"user", [binPart [1], textPart (placeholderFor [1])]⟩] :
        List Content)[0]? = some cOut ∧
      textPart (placeholderFor [1]) ∈ cOut.parts ∧
      placeheldParts cOut.parts = true := by
  obtain ⟨cOut, h1, h2, h3, _⟩ :=
    C3_placeholder_invariant [imgTurn 1]
      [⟨"user", [binPart [1], textPart (placeholderFor [1])]⟩]
      (by decide) 0 (imgTurn 1) (by decide) (by decide) (by decide) (by decide)
  exact ⟨cOut, h1, h2 (binPart [1]) ⟨some [1]⟩ [1] (by decide) rfl rfl, h3⟩

/-- Claim C6: every placeholder the compactor creates is exactly
`"[IMAGE-ID " ++ id ++ "]"` where `id` is the first 12 characters of the
digest of the image bytes, each a lowercase hex character; the id is a
function of the bytes alone (deterministic within and across runs); and the
per-part loop emits exactly this text part for a fresh image. -/
theorem C6_placeholder_format (bytes : List Nat) :
    (placeholderFor bytes).data =
      str "[IMAGE-ID " ++ imageHashId bytes ++ str "]" ∧
    (imageHashId bytes).length = 12 ∧
    (∀ ch ∈ imageHashId bytes,
      ch.isDigit = true ∨ ('a' ≤ ch ∧ ch ≤ 'f')) ∧
    (∀ bytes₂ : List Nat, bytes₂ = bytes →
      placeholderFor bytes₂ = placeholderFor bytes) ∧
    processParts false [binPart bytes] =
      some [textPart (placeholderFor bytes)] := by
  refine ⟨?_, ?_, ?_, ?_, ?_⟩
  · simp [placeholderFor, String.data_append, str]
  · rw [imageHashId, List.length_take, sha256hex, hexDigits_length 64]
    rfl
  · intro ch hch
    rw [imageHashId] at hch
    have hsub : ch ∈ sha256hex bytes := List.mem_of_mem_take hch
    rw [sha256hex] at hsub
    exact hexDigits_mem 64 _ ch hsub
  · intro b2 hb
    rw [hb]
  · simp [processParts, binPart, missingAtB]

/-- Claim C6 witness: format facts at a concrete image. -/
theorem C6_placeholder_format_witness :
    (imageHashId [1]).length = 12 ∧
    placeholderFor [1] = placeholderFor [1] :=
  ⟨(C6_placeholder_format [1]).2.1,
   (C6_placeholder_format [1]).2.2.2.1 [1] rfl⟩

/-- Claim C7 counterexample: a countable no-image turn passes through
unchanged, but appending one as the newest turn shifts every older
countable turn's counter by one: in `h3` all three image turns retain their
binaries, while in `h4 = h3 ++ [no-image turn]` the oldest turn loses its
binary — inserting the turn does change which turns retain their payloads,
refuting the claim's invariance clause. -/
theorem C7_counterexample :
    modify_image_data_in_history h3 =
      some [⟨"user", [binPart [1], textPart (placeholderFor [1])]⟩,
            ⟨"user", [binPart [2], textPart (placeholderFor [2])]⟩,
            ⟨"user", [binPart [3], textPart (placeholderFor [3])]⟩] ∧
    modify_image_data_in_history h4 =
      some [⟨"user", [textPart (placeholderFor [1])]⟩,
            ⟨"user", [binPart [2], textPart (placeholderFor [2])]⟩,
            ⟨"user", [binPart [3], textPart (placeholderFor [3])]⟩,
            textTurn "hi"] ∧
    binPart [1] ∈ [binPart [1], textPart (placeholderFor [1])] ∧
    binPart [1] ∉ [textPart (placeholderFor [1])] := by
  decide

/-- Claim C7 as amended: a turn containing no images (countable or not)
passes through with its parts unchanged; but such a turn does increment the
countable-turn counter, so inserting one can change which older countable
turns retain their payloads (see `C7_counterexample`). -/
theorem C7_no_image_passthrough (h out : List Content)
    (hm : modify_image_data_in_history h = some out)
    (t : Nat) (c : Content) (hc : h[t]? = some c)
    (hni : ∀ p ∈ c.parts, p.inline_data = none) :
    out[t]? = some c := by
  cases hcb : isCountableB c with
  | false => exact ((modify_spec h out hm).2 t c hc).1 hcb
  | true =>
    obtain ⟨ps, hps, hout⟩ := ((modify_spec h out hm).2 t c hc).2 hcb
    rw [processParts_copy (decide (countCountableFrom h t ≤ 3)) c.parts hni]
      at hps
    have heq : c.parts = ps := by
      simpa using hps
    rw [hout, ← heq]

/-- Claim C7 witness: a no-image countable turn is unchanged. -/
theorem C7_no_image_passthrough_witness :
    ([textTurn "q"] : List Content)[0]? = some (textTurn "q") :=
  C7_no_image_passthrough [textTurn "q"] [textTurn "q"] (by decide) 0
    (textTurn "q") (by decide) (by decide)

/-- Claim C8: the reverse traversal counts every countable user turn, with
or without images, so retention is by turn recency: any countable turn with
counter above 3 retains no binary; in `h8` the only image sits in the 4th
most recent countable turn (the 3 newer ones are image-less queries), its
counter is 4, and its payload is dropped even though it is the most recent
turn that contains an image. -/
theorem C8_counts_by_recency :
    (∀ (h out : List Content), modify_image_data_in_history h = some out →
      ∀ (t : Nat) (c : Content), h[t]? = some c → isCountableB c = true →
        3 < countCountableFrom h t →
        ∃ cOut, out[t]? = some cOut ∧
          ∀ q ∈ cOut.parts, q.inline_data = none) ∧
    countCountableFrom h8 0 = 4 ∧
    modify_image_data_in_history h8 = some h8Out := by
  refine ⟨?_, by decide, by decide⟩
  intro h out hm t c hc hcb hgt
  obtain ⟨ps, hps, hout⟩ := ((modify_spec h out hm).2 t c hc).2 hcb
  have hk : decide (countCountableFrom h t ≤ 3) = false := by
    simp only [decide_eq_false_iff_not]
    omega
  rw [hk] at hps
  exact ⟨_, hout, processParts_false_nobin c.parts ps hps⟩

/-- Claim C8 witness: the image turn of `h8` (counter 4) comes out with no
binary part. -/
theorem C8_counts_by_recency_witness :
    ∃ cOut, h8Out[0]? = some cOut ∧ ∀ q ∈ cOut.parts, q.inline_data = none :=
  C8_counts_by_recency.1 h8 h8Out (by decide) 0 (imgTurn 7) (by decide)
    (by decide) (by decide)

/-- Claim C9 counterexample: the bracket-stripping path splits on every
occurrence of `"ID "`, so an id containing `"ID "` (and no `']'`, as the
claim allows) is truncated at its internal `"ID "`: `"[IMAGE-ID xID y]"`
sanitizes to `"x"`, not to `"xID y"`. -/
theorem C9_counterexample :
    sanitize_image_id (str "[IMAGE-ID xID y]") = some (str "x") ∧
    some (str "x") ≠ some (pyStrip (str "xID y")) ∧
    ']' ∉ str "xID y" := by
  decide

/-- Claim C9 as amended: a string not starting with `"[IMAGE-"` (in
particular a bare id) is just stripped; and a wrapped id
`"[IMAGE-ID " ++ s ++ "]"` sanitizes to `s.strip()` provided `s` contains
no `']'` **and no `"ID "` substring** (the extra condition the
counterexample forces; every 12-hex-character id satisfies both). -/
theorem C9_sanitize (s : List Char) :
    ((str "[IMAGE-").isPrefixOf s = false →
      sanitize_image_id s = some (pyStrip s)) ∧
    (hasOccur (str "ID ") s = false → ']' ∉ s →
      sanitize_image_id (str "[IMAGE-ID " ++ (s ++ str "]")) =
        some (pyStrip s)) := by
  constructor
  · intro hpre
    unfold sanitize_image_id
    rw [if_neg]
    rw [hpre]
    simp
  · intro hocc hnb
    have hpre : (str "[IMAGE-").isPrefixOf
        (str "[IMAGE-ID " ++ (s ++ str "]")) = true := by
      have hsplit : str "[IMAGE-ID " ++ (s ++ str "]") =
          str "[IMAGE-" ++ (str "ID " ++ (s ++ str "]")) := rfl
      rw [hsplit]
      exact isPrefixOf_append_self _ _
    unfold sanitize_image_id
    rw [if_pos hpre]
    rw [pySplit, if_neg (by decide : ¬(str "ID " = []))]
    rw [pySplit_wrapped s hocc]
    show some (pyStrip ((pySplit (str "]") (s ++ str "]")).headD [])) =
      some (pyStrip s)
    rw [pySplit, if_neg (by decide : ¬(str "]" = []))]
    rw [pySplit_rbracket s hnb]
    rfl

/-- Claim C9 witness: a bare id and a well-formed wrapped id. -/
theorem C9_sanitize_witness :
    sanitize_image_id (str "  abc123  ") = some (pyStrip (str "  abc123  ")) ∧
    sanitize_image_id (str "[IMAGE-ID abc123def456]") =
      some (pyStrip (str "abc123def456")) :=
  ⟨(C9_sanitize (str "  abc123  ")).1 (by decide),
   (C9_sanitize (str "abc123def456")).2 (by decide) (by decide)⟩

/-- Claim C10: `sanitize_image_id` raises (an `IndexError`, modelled by
`none`) exactly on the inputs that start with `"[IMAGE-"` but contain no
`"ID "` substring; on every other input it returns normally. -/
theorem C10_sanitize_none_iff (l : List Char) :
    sanitize_image_id l = none ↔
      ((str "[IMAGE-").isPrefixOf l = true ∧
        hasOccur (str "ID ") l = false) := by
  unfold sanitize_image_id
  by_cases hpre : (str "[IMAGE-").isPrefixOf l = true
  · rw [if_pos hpre]
    rw [pySplit, if_neg (by decide : ¬(str "ID " = []))]
    constructor
    · intro h
      refine ⟨hpre, ?_⟩
      cases hocc : hasOccur (str "ID ") l with
      | false => rfl
      | true =>
        have hlen := pySplitGo_occur (str "ID ") l hocc
        cases hget : (pySplitGo (str "ID ") l 0).get? 1 with
        | none =>
          rw [List.get?_eq_none] at hget
          omega
        | some t => rw [hget] at h; simp at h
    · intro hco
      rw [pySplitGo_no_occur (str "ID ") l hco.2]
      rfl
  · rw [if_neg hpre]
    constructor
    · intro h; simp at h
    · intro hco
      exact absurd hco.1 hpre

/-- Claim C10 witness: a bracket-opened string with no `"ID "` raises, a
bare string returns. -/
theorem C10_sanitize_none_iff_witness :
    sanitize_image_id (str "[IMAGE-x") = none :=
  (C10_sanitize_none_iff (str "[IMAGE-x")).mpr (by decide)

example : modify_image_data_in_history [] = some [] := by decide

example :
    modify_image_data_in_history [Content.mk "user" []] = none := by decide

example :
    modify_image_data_in_history [Content.mk "model" []] =
      some [Content.mk "model" []] := by decide
